import Mathlib

/-!
Shallow embedding of `src/core/llm/bedrock_client.py` (class `BedrockClient`):
the conversation adapter `_adapt_messages`, the output-token-cap resolution in
`_make_request`, the retry loop of `_make_request`, and `rate_limit_sleep`.

Python strings are embedded as Lean `String`; header maps as partial maps
`String → Option String` (httpx header values are always strings); datetimes
as `Int` (seconds); `datetime.timedelta` as `Int` (seconds); raised exceptions
as an explicit `PyErr` error value threaded through `Except`.
-/

namespace Bedrock

/-- A conversation message: a dict with `"role"` and `"content"` string fields,
as consumed by `_adapt_messages`. -/
structure Msg where
  role : String
  content : String
deriving DecidableEq, Repr

/-- The Python exceptions this module can raise.
`customAssertionError` embeds the module's `CustomAssertionError`
(raised when the Anthropic stream has no final message);
`valueError` embeds `ValueError`; `keyError` embeds a `KeyError` from
indexing a missing header; `other` stands for any unrelated exception
(auth, network, ...) that may come out of an attempt. -/
inductive PyErr where
  | valueError (msg : String)
  | customAssertionError (msg : String)
  | keyError (key : String)
  | other (name : String) (msg : String)
deriving DecidableEq, Repr

/-- Constant `MAX_TOKENS = 4096` from `bedrock_client.py`. -/
def MAX_TOKENS : Nat := 4096

/-- Constant `MAX_TOKENS_SONNET = 4096` from `bedrock_client.py`. -/
def MAX_TOKENS_SONNET : Nat := 4096

/-- The loop body of `_adapt_messages`, processing the remaining messages.
The accumulator `acc` holds the `messages` list built so far in REVERSE order
(head of `acc` = Python's `messages[-1]`), so that the source's test
`messages[-1]["role"] == role` and the in-place merge
`messages[-1]["content"] += "\n\n" + msg["content"]` act on the head. -/
def adaptMessagesAux : List Msg → List Msg → Except PyErr (List Msg)
  | acc, [] => .ok acc.reverse
  | acc, msg :: rest =>
    if msg.role == "function" then
      .error (.valueError ("Anthropic Claude doesn\x27t support function calling"))
    else
      let role := if msg.role == "user" || msg.role == "system" then "user" else "assistant"
      match acc with
      | prev :: tl =>
        if prev.role == role then
          adaptMessagesAux ({ role := prev.role, content := prev.content ++ "\n\n" ++ msg.content } :: tl) rest
        else
          adaptMessagesAux ({ role := role, content := msg.content } :: prev :: tl) rest
      | [] => adaptMessagesAux [{ role := role, content := msg.content }] rest

/-- Embedding of `BedrockClient._adapt_messages`: adapt a conversation to the format the
Claude model expects.  Raises `ValueError` on a `function`-role message. -/
def adapt_messages (convo : List Msg) : Except PyErr (List Msg) :=
  adaptMessagesAux [] convo

/-- Embedding of `"sonnet" in self.config.model`: Python substring containment. -/
def containsSonnet (model : String) : Bool :=
  decide ("sonnet".data <:+: model.data)

/-- The `max_tokens` value placed in `completion_kwargs` by `single_attempt`:
it starts as `MAX_TOKENS` and is overwritten with `MAX_TOKENS_SONNET` when the
configured model name contains `"sonnet"`. -/
def resolvedMaxTokens (model : String) : Nat :=
  if containsSonnet model then MAX_TOKENS_SONNET else MAX_TOKENS

/-- One run of the `for attempt in range(retry_count + 1)` loop of
`_make_request`, starting at iteration `attempt` with `fuel` iterations left.
`exec i` is the outcome of `single_attempt()` on the i-th attempt (the
executor).  Returns `none` only if the loop runs out of iterations without
returning or raising (Python would fall through and return `None`; this is
unreachable for `fuel = retry_count + 1 - attempt`).  The second component of
the result counts the attempts made. -/
def retryAux (exec : Nat → Except PyErr α) (retryCount : Nat) :
    Nat → Nat → Option (Except PyErr α × Nat)
  | _, 0 => none
  | attempt, fuel + 1 =>
    match exec attempt with
    | .ok v => some (.ok v, attempt + 1)
    | .error (.customAssertionError msg) =>
      if attempt == retryCount then
        some (.error (.customAssertionError
          ("Request failed after " ++ toString (retryCount + 1) ++ " attempts: " ++ msg)),
          attempt + 1)
      else
        -- `await asyncio.sleep(1); continue`
        retryAux exec retryCount (attempt + 1) fuel
    | .error e => some (.error e, attempt + 1)

/-- The retry loop of `_make_request` with a given executor: iterations
`attempt = 0, ..., retry_count`, paired with the number of attempts made. -/
def makeRequestLoop (exec : Nat → Except PyErr α) (retryCount : Nat) :
    Option (Except PyErr α × Nat) :=
  retryAux exec retryCount 0 (retryCount + 1)

/-- Python `==` between a header value (always a `str` under httpx) and the
int literal `0`: values of different types are never equal, so this is
`False` for every string.  Embeds `remaining_tokens == 0` in
`rate_limit_sleep`. -/
def pyStrEqIntZero (_s : String) : Bool := false

/-- The behaviour of the Python `datetime` module as used by
`rate_limit_sleep`: `fromisoformat` (with `none` modelling the `ValueError`
on an unparseable string) and the current UTC time `now`, both in seconds. -/
structure DatetimeModel where
  fromisoformat : String → Option Int
  now : Int

/-- The header key chosen by the `if remaining_tokens == 0` branch of
`rate_limit_sleep` for the given value of the
`anthropic-ratelimit-tokens-remaining` header. -/
def selectedResetKey (remaining : String) : String :=
  if pyStrEqIntZero remaining then
    "anthropic-ratelimit-tokens-reset"
  else
    "anthropic-ratelimit-requests-reset"

/-- Embedding of `BedrockClient.rate_limit_sleep`.  `headers` maps header names to their
string values (`none` = absent).  The result is `Except` over the raisable
`KeyError`, then `Option` over the advised cooldown in seconds (an embedded
`datetime.timedelta`).  The source wraps `datetime.datetime.now(...)` in a
`try/except` whose two branches are identical, so it is embedded as the plain
value `dm.now`. -/
def rate_limit_sleep (dm : DatetimeModel) (headers : String → Option String) :
    Except PyErr (Option Int) :=
  match headers ("anthropic-ratelimit-tokens-remaining") with
  | none => .ok none
  | some remaining =>
    match headers (selectedResetKey remaining) with
    | none => .error (.keyError (selectedResetKey remaining))
    | some relevantDt =>
      match dm.fromisoformat relevantDt with
      | none => .ok (some 5)
      | some resetTime => .ok (some (resetTime - dm.now))

/-!
Splitting at the blank-line separator.  The spec's content-preservation
property speaks of splitting a merged turn at the `"\n\n"` separators the
adapter inserted; `splitCh` is Python's `s.split("\n\n")` (leftmost-first,
non-overlapping) on the character list of `s`.
-/

/-- Split a character list at each leftmost occurrence of `['\n', '\n']`;
`acc` holds the current piece reversed. -/
def splitAux : List Char → List Char → List (List Char)
  | [], acc => [acc.reverse]
  | [c], acc => [(c :: acc).reverse]
  | a :: b :: rest, acc =>
    if a = '\n' ∧ b = '\n' then acc.reverse :: splitAux rest []
    else splitAux (b :: rest) (a :: acc)

/-- Python `s.split("\n\n")` on a character list. -/
def splitCh (l : List Char) : List (List Char) := splitAux l []

/-- The pieces of a message's content under blank-line splitting. -/
def contentPieces (m : Msg) : List (List Char) := splitCh m.content.data

/-- Concatenation of the blank-line-split contents of a turn list, in order:
the left side of the spec's content-preservation equation. -/
def splitContents (l : List Msg) : List (List Char) :=
  l.flatMap contentPieces

/-- Returns `true` iff the character list has no occurrence of `"\n\n"`. -/
def sepFree : List Char → Bool
  | [] => true
  | [_] => true
  | a :: b :: rest => !(a = '\n' && b = '\n') && sepFree (b :: rest)

/-- A content that splits back to itself: free of the `"\n\n"` separator and
not ending in a newline (a trailing newline would fuse with the separator the
adapter appends after it). -/
def goodPiece (c : List Char) : Prop :=
  sepFree c = true ∧ c.getLast? ≠ some '\n'

/-- Join character lists with the `"\n\n"` separator, as the adapter's
repeated `content += "\n\n" + msg["content"]` does. -/
def joinSep : List (List Char) → List Char
  | [] => []
  | [c] => c
  | c :: cs => c ++ '\n' :: '\n' :: joinSep cs


/-- A turn role emitted by the adapter. -/
def RoleOk (m : Msg) : Prop := m.role = "user" ∨ m.role = "assistant"

/-- A turn content built by the adapter: a blank-line join of one or more
good pieces. -/
def JoinOfGood (a : Msg) : Prop :=
  ∃ cs, cs ≠ [] ∧ (∀ c ∈ cs, goodPiece c) ∧ a.content.data = joinSep cs

instance goodPiece.instDecidable (c : List Char) : Decidable (goodPiece c) :=
  inferInstanceAs (Decidable (sepFree c = true ∧ c.getLast? ≠ some '\n'))

lemma adaptAux_roles_chain :
    ∀ rest acc out, (∀ m ∈ acc, RoleOk m) →
      List.Chain' (fun a b : Msg => a.role ≠ b.role) acc →
      adaptMessagesAux acc rest = .ok out →
      (∀ m ∈ out, RoleOk m) ∧ List.Chain' (fun a b : Msg => a.role ≠ b.role) out := by
  intro rest
  induction rest with
  | nil =>
    intro acc out hrole hchain hout
    simp only [adaptMessagesAux, Except.ok.injEq] at hout
    subst hout
    refine ⟨by simpa using hrole, ?_⟩
    rw [List.chain'_reverse]
    exact hchain.imp fun a b hab => Ne.symm hab
  | cons msg rest ih =>
    intro acc out hrole hchain hout
    simp only [adaptMessagesAux] at hout
    by_cases hf : msg.role == "function"
    · simp [hf] at hout
    · simp only [hf, Bool.false_eq_true, if_false] at hout
      rcases acc with _ | ⟨prev, tl⟩
      · refine ih _ _ ?_ ?_ hout
        · intro m hm
          simp only [List.mem_singleton] at hm
          subst hm
          by_cases hu : msg.role == "user" || msg.role == "system" <;>
            simp [RoleOk, hu]
        · simp
      · set role := if msg.role == "user" || msg.role == "system" then "user" else "assistant" with hroledef
        by_cases hm : prev.role == role
        · simp only [hm, if_true] at hout
          refine ih _ _ ?_ ?_ hout
          · intro m hmem
            rcases List.mem_cons.1 hmem with h | h
            · subst h; exact hrole prev (by simp)
            · exact hrole m (List.mem_cons_of_mem _ h)
          · rcases tl with _ | ⟨q, tl'⟩
            · simp
            · rw [List.chain'_cons] at hchain ⊢
              exact ⟨hchain.1, hchain.2⟩
        · simp only [hm, Bool.false_eq_true, if_false] at hout
          refine ih _ _ ?_ ?_ hout
          · intro m hmem
            rcases List.mem_cons.1 hmem with h | h
            · subst h
              by_cases hu : msg.role == "user" || msg.role == "system" <;>
                simp [RoleOk, hroledef, hu]
            · exact hrole m h
          · rw [List.chain'_cons]
            refine ⟨?_, hchain⟩
            simp only [beq_iff_eq] at hm
            exact fun h => hm h.symm

lemma adaptAux_fixed :
    ∀ l acc, (∀ m ∈ l, RoleOk m) →
      List.Chain' (fun a b : Msg => a.role ≠ b.role) l →
      (∀ p ∈ acc.head?, ∀ h ∈ l.head?, p.role ≠ h.role) →
      adaptMessagesAux acc l = .ok (acc.reverse ++ l) := by
  intro l
  induction l with
  | nil => intro acc _ _ _; simp [adaptMessagesAux]
  | cons msg rest ih =>
    intro acc hrole hchain hcompat
    have hmr : RoleOk msg := hrole msg (by simp)
    have hf : (msg.role == "function") = false := by
      rcases hmr with h | h <;> simp [h]
    have hroleeq : (if msg.role == "user" || msg.role == "system" then "user" else "assistant") = msg.role := by
      rcases hmr with h | h <;> simp [h]
    have hmsg : ({ role := msg.role, content := msg.content } : Msg) = msg := rfl
    have hchainrest : List.Chain' (fun a b : Msg => a.role ≠ b.role) rest := hchain.tail
    have hcomprest : ∀ p ∈ (msg :: acc).head?, ∀ h ∈ rest.head?, p.role ≠ h.role := by
      intro p hp h hh
      simp only [List.head?_cons, Option.mem_some_iff] at hp
      subst hp
      rcases rest with _ | ⟨r, rest'⟩
      · simp at hh
      · simp only [List.head?_cons, Option.mem_some_iff] at hh
        subst hh
        exact (List.chain'_cons.1 hchain).1
    rcases acc with _ | ⟨prev, tl⟩
    · simp only [adaptMessagesAux, hf, Bool.false_eq_true, if_false, hroleeq, hmsg]
      have := ih [msg] (fun m hm => hrole m (List.mem_cons_of_mem _ hm)) hchainrest hcomprest
      rw [this]
      simp
    · have hne : prev.role ≠ msg.role := by
        have := hcompat prev (by simp) msg (by simp)
        exact this
      have hb : (prev.role == msg.role) = false := by simp [hne]
      simp only [adaptMessagesAux, hf, Bool.false_eq_true, if_false, hroleeq, hb, hmsg]
      have := ih (msg :: prev :: tl) (fun m hm => hrole m (List.mem_cons_of_mem _ hm)) hchainrest
        (by
          intro p hp h hh
          simp only [List.head?_cons, Option.mem_some_iff] at hp
          subst hp
          rcases rest with _ | ⟨r, rest'⟩
          · simp at hh
          · simp only [List.head?_cons, Option.mem_some_iff] at hh
            subst hh
            exact (List.chain'_cons.1 hchain).1)
      rw [this]
      simp

lemma adaptAux_function_error :
    ∀ rest acc, (∃ m ∈ rest, m.role = "function") →
      adaptMessagesAux acc rest =
        .error (.valueError ("Anthropic Claude doesn\x27t support function calling")) := by
  intro rest
  induction rest with
  | nil => intro acc h; simp at h
  | cons msg rest ih =>
    intro acc h
    by_cases hf : msg.role = "function"
    · simp [adaptMessagesAux, hf]
    · have hrest : ∃ m ∈ rest, m.role = "function" := by
        rcases h with ⟨m, hm, hmr⟩
        rcases List.mem_cons.1 hm with h | h
        · subst h; exact absurd hmr hf
        · exact ⟨m, h, hmr⟩
      have hfb : (msg.role == "function") = false := by simp [hf]
      simp only [adaptMessagesAux, hfb, Bool.false_eq_true, if_false]
      rcases acc with _ | ⟨prev, tl⟩
      · exact ih _ hrest
      · by_cases hm : prev.role == (if msg.role == "user" || msg.role == "system" then "user" else "assistant") <;>
          simp only [hm, if_true, Bool.false_eq_true, if_false] <;> exact ih _ hrest

/-- Claim C1: for every conversation the adapter accepts, the returned turn
sequence has no two adjacent turns with equal roles, and every turn's role
is `"user"` or `"assistant"`. -/
theorem adapt_messages_alternating_roles (convo out : List Msg)
    (h : adapt_messages convo = .ok out) :
    List.Chain' (fun a b : Msg => a.role ≠ b.role) out ∧
      ∀ m ∈ out, m.role = "user" ∨ m.role = "assistant" := by
  obtain ⟨hroles, hchain⟩ := adaptAux_roles_chain convo [] out (by simp) (by simp) h
  exact ⟨hchain, hroles⟩

/-- Witness for C1 at a concrete conversation. -/
theorem adapt_messages_alternating_roles_witness :
    adapt_messages [⟨"user", "Hi"⟩, ⟨"system", "be nice"⟩, ⟨"assistant", "ok"⟩, ⟨"user", "bye"⟩]
        = .ok [⟨"user", "Hi\n\nbe nice"⟩, ⟨"assistant", "ok"⟩, ⟨"user", "bye"⟩] ∧
      (List.Chain' (fun a b : Msg => a.role ≠ b.role)
          [⟨"user", "Hi\n\nbe nice"⟩, ⟨"assistant", "ok"⟩, ⟨"user", "bye"⟩] ∧
        ∀ m ∈ [(⟨"user", "Hi\n\nbe nice"⟩ : Msg), ⟨"assistant", "ok"⟩, ⟨"user", "bye"⟩],
          m.role = "user" ∨ m.role = "assistant") :=
  ⟨rfl, adapt_messages_alternating_roles
    [⟨"user", "Hi"⟩, ⟨"system", "be nice"⟩, ⟨"assistant", "ok"⟩, ⟨"user", "bye"⟩] _ rfl⟩

/-- Claim C7: any conversation containing a `function`-role message makes
`_adapt_messages` raise `ValueError` (the spec's `UnsupportedRoleError`),
so no turn sequence is ever produced for it. -/
theorem adapt_messages_function_role_error (convo : List Msg)
    (h : ∃ m ∈ convo, m.role = "function") :
    adapt_messages convo =
      .error (.valueError ("Anthropic Claude doesn\x27t support function calling")) :=
  adaptAux_function_error convo [] h

/-- Witness for C7 at a concrete conversation. -/
theorem adapt_messages_function_role_error_witness :
    adapt_messages [⟨"user", "hello"⟩, ⟨"function", "result"⟩]
      = .error (.valueError ("Anthropic Claude doesn\x27t support function calling")) :=
  adapt_messages_function_role_error _ ⟨⟨"function", "result"⟩, by simp, rfl⟩

/-- Claim C10: normalization is idempotent — adapting an already-adapted turn
sequence returns it unchanged. -/
theorem adapt_messages_idempotent (convo out : List Msg)
    (h : adapt_messages convo = .ok out) :
    adapt_messages out = .ok out := by
  obtain ⟨hroles, hchain⟩ := adaptAux_roles_chain convo [] out (by simp) (by simp) h
  have := adaptAux_fixed out [] hroles hchain (by simp)
  simpa [adapt_messages] using this

/-- Witness for C10 at a concrete conversation. -/
theorem adapt_messages_idempotent_witness :
    adapt_messages [⟨"system", "sys"⟩, ⟨"assistant", "a"⟩, ⟨"assistant", "b"⟩]
        = .ok [⟨"user", "sys"⟩, ⟨"assistant", "a\n\nb"⟩] ∧
      adapt_messages [⟨"user", "sys"⟩, ⟨"assistant", "a\n\nb"⟩]
        = .ok [⟨"user", "sys"⟩, ⟨"assistant", "a\n\nb"⟩] :=
  ⟨rfl, adapt_messages_idempotent [⟨"system", "sys"⟩, ⟨"assistant", "a"⟩, ⟨"assistant", "b"⟩] _ rfl⟩

/-- Claim C2, counterexample: `"claude-3-sonnet"` contains `"sonnet"`, yet the
resolved cap is not strictly higher than the default cap — both constants
are 4096 in this code. -/
theorem sonnet_cap_not_higher_counterexample :
    containsSonnet "claude-3-sonnet" = true ∧
      ¬ MAX_TOKENS < resolvedMaxTokens "claude-3-sonnet" := by
  constructor
  · decide
  · simp [resolvedMaxTokens, MAX_TOKENS, MAX_TOKENS_SONNET]

/-- Claim C2, amended: the resolved cap equals the default cap for every model
identifier, because `MAX_TOKENS_SONNET` and `MAX_TOKENS` are both 4096. -/
theorem resolvedMaxTokens_eq_default (model : String) :
    resolvedMaxTokens model = MAX_TOKENS := by
  unfold resolvedMaxTokens MAX_TOKENS_SONNET MAX_TOKENS
  split <;> rfl

/-- Claim C3: a rate-limit signal with remaining request tokens `"0"` (header
values are strings), token reset 2024-01-01T00:00:05Z and request reset
2024-01-01T00:00:30Z at current time 2024-01-01T00:00:00Z: the code derives
the cooldown from the REQUEST-count reset (30 s), not from the token-budget
reset (5 s), because `remaining_tokens == 0` compares a `str` with an `int`
and is always false in Python. -/
theorem rate_limit_sleep_zero_remaining_bug :
    rate_limit_sleep
        ⟨fun s => if s = "2024-01-01T00:00:05+00:00" then some 5
                  else if s = "2024-01-01T00:00:30+00:00" then some 30
                  else none, 0⟩
        (fun k => if k = "anthropic-ratelimit-tokens-remaining" then some ("0")
                  else if k = "anthropic-ratelimit-tokens-reset" then some ("2024-01-01T00:00:05+00:00")
                  else if k = "anthropic-ratelimit-requests-reset" then some ("2024-01-01T00:00:30+00:00")
                  else none)
        = .ok (some 30) ∧ (30 : Int) ≠ 5 := by
  exact ⟨rfl, by decide⟩

/-- Claim C8: when the remaining-tokens header is present and the selected reset
header is present, the result is the 5-second fallback if the timestamp does
not parse, and (reset − now) if it does. -/
theorem rate_limit_sleep_parse_behavior (dm : DatetimeModel)
    (headers : String → Option String) (remaining dtStr : String)
    (h1 : headers ("anthropic-ratelimit-tokens-remaining") = some remaining)
    (h2 : headers (selectedResetKey remaining) = some dtStr) :
    (dm.fromisoformat dtStr = none → rate_limit_sleep dm headers = .ok (some 5)) ∧
      ∀ t, dm.fromisoformat dtStr = some t →
        rate_limit_sleep dm headers = .ok (some (t - dm.now)) := by
  constructor
  · intro hp
    simp [rate_limit_sleep, h1, h2, hp]
  · intro t hp
    simp [rate_limit_sleep, h1, h2, hp]

/-- Witness for C8: one signal whose timestamp fails to parse (fallback 5),
and one that parses to a reset 5 s before `now` (negative cooldown −5). -/
theorem rate_limit_sleep_parse_behavior_witness :
    rate_limit_sleep ⟨fun _ => none, 0⟩
        (fun k => if k = "anthropic-ratelimit-tokens-remaining" then some ("1")
                  else if k = "anthropic-ratelimit-requests-reset" then some ("garbage")
                  else none)
        = .ok (some 5) ∧
      rate_limit_sleep ⟨fun s => if s = "2024-01-01T00:00:05+00:00" then some 5 else none, 10⟩
        (fun k => if k = "anthropic-ratelimit-tokens-remaining" then some ("1")
                  else if k = "anthropic-ratelimit-requests-reset" then some ("2024-01-01T00:00:05+00:00")
                  else none)
        = .ok (some (-5)) := by
  constructor
  · exact (rate_limit_sleep_parse_behavior _ _ ("1") ("garbage") rfl rfl).1 rfl
  · exact (rate_limit_sleep_parse_behavior _ _ ("1") ("2024-01-01T00:00:05+00:00") rfl rfl).2 5 rfl

/-- Claim C9: when the remaining-tokens header is present but the reset header the
branch selects is absent, indexing raises `KeyError` — the lookup is not
guarded. -/
theorem rate_limit_sleep_missing_reset_key (dm : DatetimeModel)
    (headers : String → Option String) (remaining : String)
    (h1 : headers ("anthropic-ratelimit-tokens-remaining") = some remaining)
    (h2 : headers (selectedResetKey remaining) = none) :
    rate_limit_sleep dm headers = .error (.keyError (selectedResetKey remaining)) := by
  simp [rate_limit_sleep, h1, h2]

/-- Witness for C9: a signal carrying only the remaining-tokens header. -/
theorem rate_limit_sleep_missing_reset_key_witness :
    rate_limit_sleep ⟨fun _ => none, 0⟩
        (fun k => if k = "anthropic-ratelimit-tokens-remaining" then some ("7") else none)
        = .error (.keyError (selectedResetKey ("7"))) :=
  rate_limit_sleep_missing_reset_key _ _ ("7") rfl rfl

lemma retryAux_all_cae {α : Type} (exec : Nat → Except PyErr α) (n : Nat) (msgs : Nat → String)
    (hexec : ∀ i, i ≤ n → exec i = .error (.customAssertionError (msgs i))) :
    ∀ fuel attempt, attempt + fuel = n + 1 → 1 ≤ fuel →
      retryAux exec n attempt fuel =
        some (.error (.customAssertionError
          ("Request failed after " ++ toString (n + 1) ++ " attempts: " ++ msgs n)), n + 1) := by
  intro fuel
  induction fuel with
  | zero => intro attempt _ h1; omega
  | succ f ih =>
    intro attempt hsum _
    have hle : attempt ≤ n := by omega
    have hx := hexec attempt hle
    by_cases heq : attempt = n
    · subst heq
      simp [retryAux, hx]
    · have hb : (attempt == n) = false := by simp [heq]
      have hf1 : 1 ≤ f := by omega
      simp only [retryAux, hx, hb, Bool.false_eq_true, if_false]
      exact ih (attempt + 1) (by omega) hf1

/-- Claim C4: with an executor that fails every attempt with
`CustomAssertionError` (the spec's `IncompleteStreamError`), the retry loop
of `_make_request` with `retry_count = n` makes exactly `n + 1` attempts and
raises a `CustomAssertionError` reporting the attempt count `n + 1` and the
last underlying message. -/
theorem retry_exhaustion_reports_attempts {α : Type} (exec : Nat → Except PyErr α)
    (n : Nat) (msgs : Nat → String)
    (hexec : ∀ i, i ≤ n → exec i = .error (.customAssertionError (msgs i))) :
    makeRequestLoop exec n =
      some (.error (.customAssertionError
        ("Request failed after " ++ toString (n + 1) ++ " attempts: " ++ msgs n)), n + 1) :=
  retryAux_all_cae exec n msgs hexec (n + 1) 0 (by omega) (by omega)

/-- Witness for C4: an executor that always fails with
"No final message received." and `retry_count = 1` raises after exactly 2
attempts with the annotated message. -/
theorem retry_exhaustion_reports_attempts_witness :
    makeRequestLoop (α := String)
        (fun _ => .error (.customAssertionError ("No final message received."))) 1 =
      some (.error (.customAssertionError
        ("Request failed after 2 attempts: No final message received.")), 2) :=
  retry_exhaustion_reports_attempts
    (fun _ => .error (.customAssertionError ("No final message received."))) 1
    (fun _ => "No final message received.") (fun _ _ => rfl)

lemma retryAux_other_error {α : Type} (exec : Nat → Except PyErr α) (n k : Nat)
    (e : PyErr) (msgs : Nat → String)
    (hk : k ≤ n)
    (hbefore : ∀ i, i < k → exec i = .error (.customAssertionError (msgs i)))
    (hke : exec k = .error e)
    (hnot : ∀ msg, e ≠ .customAssertionError msg) :
    ∀ fuel attempt, attempt + fuel = n + 1 → attempt ≤ k →
      retryAux exec n attempt fuel = some (.error e, k + 1) := by
  intro fuel
  induction fuel with
  | zero => intro attempt hsum hak; omega
  | succ f ih =>
    intro attempt hsum hak
    by_cases heq : attempt = k
    · subst heq
      cases e with
      | customAssertionError msg => exact absurd rfl (hnot msg)
      | valueError msg => simp [retryAux, hke]
      | keyError key => simp [retryAux, hke]
      | other nm msg => simp [retryAux, hke]
    · have hlt : attempt < k := by omega
      have hx := hbefore attempt hlt
      have hb : (attempt == n) = false := by
        have : attempt < n := by omega
        simp [Nat.ne_of_lt this]
      simp only [retryAux, hx, hb, Bool.false_eq_true, if_false]
      exact ih (attempt + 1) (by omega) (by omega)

/-- Claim C5: any failure other than `CustomAssertionError` raised by an attempt —
even after earlier retryable failures — propagates unchanged as soon as it
occurs, with no further attempts: the loop only ever catches
`CustomAssertionError`. -/
theorem retry_propagates_other_errors {α : Type} (exec : Nat → Except PyErr α)
    (n k : Nat) (e : PyErr) (msgs : Nat → String)
    (hk : k ≤ n)
    (hbefore : ∀ i, i < k → exec i = .error (.customAssertionError (msgs i)))
    (hke : exec k = .error e)
    (hnot : ∀ msg, e ≠ .customAssertionError msg) :
    makeRequestLoop exec n = some (.error e, k + 1) :=
  retryAux_other_error exec n k e msgs hk hbefore hke hnot (n + 1) 0 (by omega) (by omega)

/-- Witness for C5: a non-retryable provider error on the first attempt is
propagated unchanged after exactly 1 attempt, even with retries remaining. -/
theorem retry_propagates_other_errors_witness :
    makeRequestLoop (α := String) (fun _ => .error (.other ("RateLimitError") ("429"))) 3 =
      some (.error (.other ("RateLimitError") ("429")), 1) :=
  retry_propagates_other_errors (fun _ => .error (.other ("RateLimitError") ("429"))) 3 0
    (.other ("RateLimitError") ("429")) (fun _ => "") (by omega) (fun i hi => absurd hi (by omega))
    rfl (fun msg h => by simp at h)

lemma splitAux_of_sepFree :
    ∀ (c : List Char), sepFree c = true → ∀ acc, splitAux c acc = [acc.reverse ++ c] := by
  intro c
  induction c with
  | nil => intro _ acc; simp [splitAux]
  | cons x c' ih =>
    intro hsf acc
    cases c' with
    | nil => simp [splitAux]
    | cons b rest =>
      simp only [sepFree, Bool.and_eq_true, Bool.not_eq_true'] at hsf
      have hcond : ¬(x = '\n' ∧ b = '\n') := by
        intro ⟨h1, h2⟩
        simp [h1, h2] at hsf
      have hsf' : sepFree (b :: rest) = true := hsf.2
      simp only [splitAux, if_neg hcond]
      rw [ih hsf' (x :: acc)]
      simp

lemma splitAux_sep_boundary :
    ∀ (c : List Char), sepFree c = true → c.getLast? ≠ some '\n' →
      ∀ (r : List Char) (acc : List Char),
        splitAux (c ++ '\n' :: '\n' :: r) acc = (acc.reverse ++ c) :: splitAux r [] := by
  intro c
  induction c with
  | nil => intro _ _ r acc; simp [splitAux]
  | cons x c' ih =>
    intro hsf hlast r acc
    cases c' with
    | nil =>
      have hx : x ≠ '\n' := by
        intro h
        exact hlast (by simp [h])
      have hcond : ¬(x = '\n' ∧ '\n' = '\n') := fun ⟨h1, _⟩ => hx h1
      simp only [List.cons_append, List.nil_append, splitAux, if_neg hcond]
      simp [splitAux, hx]
    | cons b rest =>
      simp only [sepFree, Bool.and_eq_true, Bool.not_eq_true'] at hsf
      have hcond : ¬(x = '\n' ∧ b = '\n') := by
        intro ⟨h1, h2⟩
        simp [h1, h2] at hsf
      have hlast' : (b :: rest).getLast? ≠ some '\n' := by
        simpa [List.getLast?_cons_cons] using hlast
      simp only [List.cons_append, splitAux]
      rw [if_neg (by simpa using hcond)]
      rw [show b :: rest.append ('\n' :: '\n' :: r) = (b :: rest) ++ '\n' :: '\n' :: r from rfl]
      rw [ih hsf.2 hlast' r (x :: acc)]
      simp

lemma splitCh_joinSep :
    ∀ cs : List (List Char), cs ≠ [] → (∀ c ∈ cs, goodPiece c) →
      splitCh (joinSep cs) = cs := by
  intro cs
  induction cs with
  | nil => intro h _; exact absurd rfl h
  | cons c cs' ih =>
    intro _ hgood
    cases cs' with
    | nil =>
      have := (hgood c (by simp)).1
      simp [splitCh, joinSep, splitAux_of_sepFree c this []]
    | cons d cs'' =>
      have hc : goodPiece c := hgood c (by simp)
      have hjoin : joinSep (c :: d :: cs'') = c ++ '\n' :: '\n' :: joinSep (d :: cs'') := rfl
      rw [splitCh, hjoin, splitAux_sep_boundary c hc.1 hc.2 (joinSep (d :: cs'')) []]
      rw [List.reverse_nil, List.nil_append]
      have := ih (by simp) (fun x hx => hgood x (List.mem_cons_of_mem _ hx))
      rw [splitCh] at this
      rw [this]

lemma joinSep_append_single (cs : List (List Char)) (d : List Char) (h : cs ≠ []) :
    joinSep (cs ++ [d]) = joinSep cs ++ '\n' :: '\n' :: d := by
  induction cs with
  | nil => exact absurd rfl h
  | cons c cs' ih =>
    cases cs' with
    | nil => rfl
    | cons e cs'' =>
      have : joinSep ((c :: e :: cs'') ++ [d]) = c ++ '\n' :: '\n' :: joinSep ((e :: cs'') ++ [d]) := rfl
      rw [this, ih (by simp)]
      simp [joinSep]

lemma adaptAux_content :
    ∀ rest acc out, (∀ m ∈ rest, goodPiece m.content.data) →
      (∀ a ∈ acc, JoinOfGood a) →
      adaptMessagesAux acc rest = .ok out →
      splitContents out = splitContents acc.reverse ++ rest.map (fun m => m.content.data) := by
  intro rest
  induction rest with
  | nil =>
    intro acc out _ _ hout
    simp only [adaptMessagesAux, Except.ok.injEq] at hout
    subst hout
    simp
  | cons msg rest ih =>
    intro acc out hgood hinv hout
    have hmsggood : goodPiece msg.content.data := hgood msg (by simp)
    have hgoodrest : ∀ m ∈ rest, goodPiece m.content.data :=
      fun m hm => hgood m (List.mem_cons_of_mem _ hm)
    simp only [adaptMessagesAux] at hout
    by_cases hf : msg.role == "function"
    · simp [hf] at hout
    · simp only [hf, Bool.false_eq_true, if_false] at hout
      rcases acc with _ | ⟨prev, tl⟩
      · have hnewinv : ∀ a ∈ [({ role := if msg.role == "user" || msg.role == "system" then "user" else "assistant", content := msg.content } : Msg)], JoinOfGood a := by
          intro a ha
          simp only [List.mem_singleton] at ha
          subst ha
          exact ⟨[msg.content.data], by simp, by simpa using hmsggood, rfl⟩
        have := ih _ _ hgoodrest hnewinv hout
        rw [this]
        simp [splitContents, contentPieces, splitCh, splitAux_of_sepFree _ hmsggood.1]
      · by_cases hm : prev.role == (if msg.role == "user" || msg.role == "system" then "user" else "assistant")
        · simp only [hm, if_true] at hout
          obtain ⟨cs, hne, hcsgood, hdata⟩ := hinv prev (by simp)
          have hmerged : ({ role := prev.role, content := prev.content ++ "\n\n" ++ msg.content } : Msg).content.data
              = joinSep (cs ++ [msg.content.data]) := by
            show (prev.content ++ "\n\n" ++ msg.content).data = _
            have hsep : ("\n\n" : String).data = ['\n', '\n'] := by decide
            rw [String.data_append, String.data_append, hdata,
              joinSep_append_single cs msg.content.data hne, hsep]
            simp
          have hmergedinv : JoinOfGood { role := prev.role, content := prev.content ++ "\n\n" ++ msg.content } :=
            ⟨cs ++ [msg.content.data], by simp, by
              intro c hc
              rcases List.mem_append.1 hc with h | h
              · exact hcsgood c h
              · simp only [List.mem_singleton] at h
                subst h
                exact hmsggood, hmerged⟩
          have hinv' : ∀ a ∈ ({ role := prev.role, content := prev.content ++ "\n\n" ++ msg.content } : Msg) :: tl, JoinOfGood a := by
            intro a ha
            rcases List.mem_cons.1 ha with h | h
            · subst h; exact hmergedinv
            · exact hinv a (List.mem_cons_of_mem _ h)
          have := ih _ _ hgoodrest hinv' hout
          rw [this]
          have hp1 : contentPieces { role := prev.role, content := prev.content ++ "\n\n" ++ msg.content }
              = cs ++ [msg.content.data] := by
            show splitCh _ = _
            rw [hmerged, splitCh_joinSep (cs ++ [msg.content.data]) (by simp)
              (by
                intro c hc
                rcases List.mem_append.1 hc with h | h
                · exact hcsgood c h
                · simp only [List.mem_singleton] at h
                  subst h
                  exact hmsggood)]
          have hp2 : contentPieces prev = cs := by
            show splitCh _ = _
            rw [hdata, splitCh_joinSep cs hne hcsgood]
          simp only [splitContents, List.reverse_cons, List.flatMap_append,
            List.flatMap_cons, List.flatMap_nil, List.map_cons, hp1, hp2, List.append_nil]
          simp
        · simp only [hm, Bool.false_eq_true, if_false] at hout
          have hnewinv : ∀ a ∈ ({ role := if msg.role == "user" || msg.role == "system" then "user" else "assistant", content := msg.content } : Msg) :: prev :: tl, JoinOfGood a := by
            intro a ha
            rcases List.mem_cons.1 ha with h | h
            · subst h
              exact ⟨[msg.content.data], by simp, by simpa using hmsggood, rfl⟩
            · exact hinv a h
          have := ih _ _ hgoodrest hnewinv hout
          rw [this]
          have hpn : contentPieces { role := if msg.role == "user" || msg.role == "system" then "user" else "assistant", content := msg.content }
              = [msg.content.data] := by
            show splitCh _ = _
            exact splitAux_of_sepFree _ hmsggood.1 []
          simp only [splitContents, List.reverse_cons, List.flatMap_append,
            List.flatMap_cons, List.flatMap_nil, List.map_cons, hpn, List.append_nil]
          simp

/-- Claim C6, counterexample: splitting merged turns at the blank-line separator
does not always reproduce the original message contents.  First input: a
single content already containing `"\n\n"` over-splits.  Second input: a
content ending in `"\n"` fuses with the inserted separator, so the leftmost
split point falls inside the original content. -/
theorem split_roundtrip_counterexample :
    (adapt_messages [⟨"user", "a\n\nb"⟩] = .ok [⟨"user", "a\n\nb"⟩] ∧
      splitContents [⟨"user", "a\n\nb"⟩] ≠ ["a\n\nb".data]) ∧
    (adapt_messages [⟨"user", "x\n"⟩, ⟨"system", "y"⟩] = .ok [⟨"user", "x\n\n\ny"⟩] ∧
      splitContents [⟨"user", "x\n\n\ny"⟩] ≠ ["x\n".data, "y".data]) :=
  ⟨⟨rfl, by decide⟩, ⟨rfl, by decide⟩⟩

/-- Claim C6, amended: provided no original content contains the `"\n\n"`
separator and none ends with a newline, concatenating the blank-line-split
contents of the adapted turns reproduces every original message content in
the original order. -/
theorem adapt_messages_content_preserving (convo out : List Msg)
    (hgood : ∀ m ∈ convo, goodPiece m.content.data)
    (h : adapt_messages convo = .ok out) :
    splitContents out = convo.map (fun m => m.content.data) := by
  have := adaptAux_content convo [] out hgood (by simp) h
  simpa [splitContents] using this

/-- Witness for C6 at the spec's example conversation:
`[user:"Hi", system:"be nice", assistant:"ok", user:"bye"]` adapts to
`[user:"Hi\n\nbe nice", assistant:"ok", user:"bye"]`, whose split contents
are exactly the four original contents. -/
theorem adapt_messages_content_preserving_witness :
    (∀ m ∈ [(⟨"user", "Hi"⟩ : Msg), ⟨"system", "be nice"⟩, ⟨"assistant", "ok"⟩, ⟨"user", "bye"⟩],
      goodPiece m.content.data) ∧
    splitContents [⟨"user", "Hi\n\nbe nice"⟩, ⟨"assistant", "ok"⟩, ⟨"user", "bye"⟩]
      = ["Hi".data, "be nice".data, "ok".data, "bye".data] := by
  refine ⟨by decide, ?_⟩
  have := adapt_messages_content_preserving
    [⟨"user", "Hi"⟩, ⟨"system", "be nice"⟩, ⟨"assistant", "ok"⟩, ⟨"user", "bye"⟩]
    [⟨"user", "Hi\n\nbe nice"⟩, ⟨"assistant", "ok"⟩, ⟨"user", "bye"⟩]
    (by decide) rfl
  simpa using this

end Bedrock
